import Mathlib

/-!
Verification of the Questgen core (text processing and question generation).

Text is modelled as `List Char` (one entry per Python code point).  External
tokenizers (NLTK `sent_tokenize` / `word_tokenize`) and the NFKD normalizer
are parameters of the embedded functions, since they are library calls outside
this repository.
-/

/-- Python strings are modelled as lists of characters. -/
abbrev Str := List Char

/-- Coerce a Lean string literal to the `Str` model. -/
def str (s : String) : Str := s.data

/-- Characters matched by the Python regex class `\s` / `str.isspace` within the ASCII range
(the cleaner first drops every non-ASCII character). -/
def isSpace (c : Char) : Bool :=
  c.toNat = 32 || (9 ≤ c.toNat && c.toNat ≤ 13) || (28 ≤ c.toNat && c.toNat ≤ 31)

/-- Python `str.lower` (ASCII behaviour). -/
def lowerL (s : Str) : Str := s.map Char.toLower

/-- Python `str.strip()`: drop leading and trailing whitespace. -/
def pyStrip (s : Str) : Str :=
  ((s.dropWhile isSpace).reverse.dropWhile isSpace).reverse

/-- Boolean prefix test on character lists. -/
def isPre : Str → Str → Bool
  | [], _ => true
  | _ :: _, [] => false
  | a :: ps, b :: ls => a == b && isPre ps ls

/-- The Python substring test `needle in haystack`. -/
def hasSub (n : Str) : Str → Bool
  | [] => n.isEmpty
  | c :: t => isPre n (c :: t) || hasSub n t

section Chunker

/-!
`TextProcessor.split_into_chunks` (file_processor.py, lines 145-179):
greedy sentence packing.  `cur` is the running `current_chunk_tokens`
accumulator, the list argument is the remaining sentence token lists.
-/

/-- Loop body of `split_into_chunks`: greedily accumulate sentence token lists
into chunks of at most `chunk_size` tokens, flushing on overflow. -/
def chunkLoop (chunk_size : Nat) (cur : List Str) : List (List Str) → List (List Str)
  | [] => if cur.isEmpty then [] else [cur]
  | s :: rest =>
    if cur.length + s.length ≤ chunk_size then chunkLoop chunk_size (cur ++ s) rest
    else if cur.isEmpty then chunkLoop chunk_size s rest
    else cur :: chunkLoop chunk_size s rest

/-- Token-level result of `split_into_chunks`: the token lists of the emitted
chunks, before they are joined with single spaces. -/
def splitChunksTokens (sent_tokenize word_tokenize : Str → List Str)
    (chunk_size : Nat) (text : Str) : List (List Str) :=
  if text = [] then []
  else chunkLoop chunk_size [] ((sent_tokenize text).map word_tokenize)

/-- `TextProcessor.split_into_chunks`: each emitted chunk is its token list
joined with single spaces, as in the source. -/
def split_into_chunks (sent_tokenize word_tokenize : Str → List Str)
    (chunk_size : Nat) (text : Str) : List Str :=
  (splitChunksTokens sent_tokenize word_tokenize chunk_size text).map
    (fun toks => List.intercalate (str " ") toks)

theorem chunkLoop_join (cs : Nat) (cur : List Str) (ls : List (List Str)) :
    (chunkLoop cs cur ls).flatten = cur ++ ls.flatten := by
  induction ls generalizing cur with
  | nil =>
    by_cases h : cur.isEmpty
    · simp [chunkLoop, h, List.isEmpty_iff.mp h]
    · simp [chunkLoop, h]
  | cons s rest ih =>
    by_cases h1 : cur.length + s.length ≤ cs
    · simp [chunkLoop, h1, ih, List.append_assoc]
    · by_cases h2 : cur.isEmpty
      · simp [chunkLoop, h1, h2, ih, List.isEmpty_iff.mp h2]
      · simp [chunkLoop, h1, h2, ih]

theorem chunkLoop_mem (cs : Nat) (cur : List Str) (ls : List (List Str))
    (c : List Str) (hc : c ∈ chunkLoop cs cur ls) :
    c.length ≤ cs ∨ c = cur ∨ c ∈ ls := by
  induction ls generalizing cur with
  | nil =>
    by_cases h : cur.isEmpty
    · simp [chunkLoop, h] at hc
    · simp [chunkLoop, h] at hc
      exact Or.inr (Or.inl hc)
  | cons s rest ih =>
    by_cases h1 : cur.length + s.length ≤ cs
    · simp only [chunkLoop, if_pos h1] at hc
      rcases ih (cur ++ s) hc with h | h | h
      · exact Or.inl h
      · subst h
        exact Or.inl (by simpa using h1)
      · exact Or.inr (Or.inr (List.mem_cons_of_mem _ h))
    · by_cases h2 : cur.isEmpty
      · simp only [chunkLoop, if_neg h1, if_pos h2] at hc
        rcases ih s hc with h | h | h
        · exact Or.inl h
        · exact Or.inr (Or.inr (by simp [h]))
        · exact Or.inr (Or.inr (List.mem_cons_of_mem _ h))
      · simp only [chunkLoop, if_neg h1, if_neg h2] at hc
        rcases List.mem_cons.mp hc with h | h
        · exact Or.inr (Or.inl h)
        · rcases ih s h with h' | h' | h'
          · exact Or.inl h'
          · exact Or.inr (Or.inr (by simp [h']))
          · exact Or.inr (Or.inr (List.mem_cons_of_mem _ h'))

/-- C3: concatenating the tokens of all chunks (in emission order) reproduces
the token sequence of the sentence-tokenized, word-tokenized input, with no
loss, duplication or reordering; empty input yields no chunks. -/
theorem split_into_chunks_coverage (sent_tokenize word_tokenize : Str → List Str)
    (chunk_size : Nat) (text : Str)
    (hempty : sent_tokenize [] = []) :
    (splitChunksTokens sent_tokenize word_tokenize chunk_size text).flatten
        = ((sent_tokenize text).map word_tokenize).flatten ∧
    split_into_chunks sent_tokenize word_tokenize chunk_size text
        = (splitChunksTokens sent_tokenize word_tokenize chunk_size text).map
            (fun toks => List.intercalate (str " ") toks) ∧
    (text = [] → split_into_chunks sent_tokenize word_tokenize chunk_size text = []) := by
  refine ⟨?_, rfl, ?_⟩
  · by_cases h : text = []
    · simp [splitChunksTokens, h, hempty]
    · simp [splitChunksTokens, h, chunkLoop_join]
  · intro h
    simp [split_into_chunks, splitChunksTokens, h]

/-- Sentence tokenizer used by concrete witnesses: split on periods. -/
def dotSents (s : Str) : List Str := (s.splitOn '.').filter (fun x => !x.isEmpty)

/-- Word tokenizer used by concrete witnesses: split on spaces. -/
def spaceWords (s : Str) : List Str := (s.splitOn ' ').filter (fun x => !x.isEmpty)

/-- Witness for C3 at a concrete tokenizer and input. -/
theorem split_into_chunks_coverage_witness :
    (splitChunksTokens dotSents spaceWords 1 (str "A. B. C.")).flatten
      = ((dotSents (str "A. B. C.")).map spaceWords).flatten :=
  (split_into_chunks_coverage dotSents spaceWords 1 (str "A. B. C.") (by decide)).1

/-- C4: every emitted chunk has at most `chunk_size` tokens, unless it is the
token list of a single input sentence that by itself exceeds `chunk_size`
(such a sentence is emitted as its own chunk, never combined). -/
theorem split_into_chunks_bound (sent_tokenize word_tokenize : Str → List Str)
    (chunk_size : Nat) (text : Str) (c : List Str)
    (hc : c ∈ splitChunksTokens sent_tokenize word_tokenize chunk_size text) :
    c.length ≤ chunk_size ∨
      (c ∈ (sent_tokenize text).map word_tokenize ∧ chunk_size < c.length) := by
  by_cases h : text = []
  · simp [splitChunksTokens, h] at hc
  · simp only [splitChunksTokens, if_neg h] at hc
    rcases chunkLoop_mem chunk_size [] _ c hc with h' | h' | h'
    · exact Or.inl h'
    · subst h'
      exact Or.inl (Nat.zero_le _)
    · by_cases hle : c.length ≤ chunk_size
      · exact Or.inl hle
      · exact Or.inr ⟨h', Nat.lt_of_not_le hle⟩

/-- Witness for C4 at a concrete tokenizer, input and chunk. -/
theorem split_into_chunks_bound_witness :
    [str "A"].length ≤ 1 ∨
      ([str "A"] ∈ (dotSents (str "A. B")).map spaceWords ∧ 1 < ([str "A"]).length) :=
  split_into_chunks_bound dotSents spaceWords 1 (str "A. B") [str "A"] (by decide)

end Chunker

section ConceptExtractor

/-!
`TextProcessor.extract_key_concepts` (file_processor.py, lines 181-210):
lowercase, tokenize, filter stopwords / short / non-alphanumeric tokens,
count frequencies in a dict (insertion ordered), stable-sort by descending
count, return the first `num_concepts` keys.
-/

/-- Python `str.isalnum`: nonempty and every character alphanumeric. -/
def isAlnumStr (w : Str) : Bool := !w.isEmpty && w.all Char.isAlphanum

/-- The filter applied to tokens: not a stopword (after lowering), length
greater than 2, and alphanumeric. -/
def keepToken (stop_words : List Str) (w : Str) : Bool :=
  !(stop_words.contains (lowerL w)) && decide (2 < w.length) && isAlnumStr w

/-- A single `word_counts[word] = word_counts.get(word, 0) + 1` update on the
insertion-ordered association list. -/
def bump (w : Str) : List (Str × Nat) → List (Str × Nat)
  | [] => [(w, 1)]
  | (v, n) :: rest => if v = w then (v, n + 1) :: rest else (v, n) :: bump w rest

/-- The `word_counts` dict after counting all tokens, as an insertion-ordered
association list. -/
def countsOf (ws : List Str) : List (Str × Nat) :=
  ws.foldl (fun acc w => bump w acc) []

/-- Stable insertion of one entry into a descending-by-count list: the entry
goes before every entry with a smaller-or-equal count. -/
def insDesc (x : Str × Nat) : List (Str × Nat) → List (Str × Nat)
  | [] => [x]
  | y :: ys => if y.2 ≤ x.2 then x :: y :: ys else y :: insDesc x ys

/-- Stable sort by descending count (Python `sorted(..., key=count,
reverse=True)` is stable, and a stable descending sort is unique). -/
def sortDesc : List (Str × Nat) → List (Str × Nat)
  | [] => []
  | x :: xs => insDesc x (sortDesc xs)

/-- The filtered token stream (`filtered_words` in the source). -/
def filteredTokens (word_tokenize : Str → List Str) (stop_words : List Str)
    (text : Str) : List Str :=
  (word_tokenize (lowerL text)).filter (keepToken stop_words)

/-- The sorted count list (`sorted_words` in the source). -/
def conceptCounts (word_tokenize : Str → List Str) (stop_words : List Str)
    (text : Str) : List (Str × Nat) :=
  sortDesc (countsOf (filteredTokens word_tokenize stop_words text))

/-- `TextProcessor.extract_key_concepts`. -/
def extract_key_concepts (word_tokenize : Str → List Str) (stop_words : List Str)
    (text : Str) (num_concepts : Nat) : List Str :=
  if text = [] then []
  else ((conceptCounts word_tokenize stop_words text).take num_concepts).map Prod.fst

theorem bump_map_fst (w : Str) (acc : List (Str × Nat)) :
    (bump w acc).map Prod.fst =
      if w ∈ acc.map Prod.fst then acc.map Prod.fst else acc.map Prod.fst ++ [w] := by
  induction acc with
  | nil => simp [bump]
  | cons p rest ih =>
    obtain ⟨v, n⟩ := p
    by_cases hv : v = w
    · simp [bump, hv]
    · simp only [bump, if_neg hv, List.map_cons, List.mem_cons]
      rw [ih]
      have : ¬ w = v := fun h => hv h.symm
      by_cases hw : w ∈ rest.map Prod.fst
      · simp [hw, this]
      · simp [hw, this]

theorem bump_fst_mem (w : Str) (acc : List (Str × Nat)) (p : Str × Nat)
    (hp : p ∈ bump w acc) : p.1 = w ∨ p ∈ acc := by
  induction acc with
  | nil => simp [bump] at hp; simp [hp]
  | cons q rest ih =>
    obtain ⟨v, n⟩ := q
    by_cases hv : v = w
    · simp only [bump, if_pos hv] at hp
      rcases List.mem_cons.mp hp with h | h
      · subst h; exact Or.inl hv
      · exact Or.inr (List.mem_cons_of_mem _ h)
    · simp only [bump, if_neg hv] at hp
      rcases List.mem_cons.mp hp with h | h
      · subst h; exact Or.inr (List.mem_cons_self _ _)
      · rcases ih h with h' | h'
        · exact Or.inl h'
        · exact Or.inr (List.mem_cons_of_mem _ h')

theorem bump_eq_append_of_not_mem (w : Str) (acc : List (Str × Nat))
    (hw : w ∉ acc.map Prod.fst) : bump w acc = acc ++ [(w, 1)] := by
  induction acc with
  | nil => simp [bump]
  | cons q rest ih =>
    obtain ⟨v, n⟩ := q
    simp only [List.map_cons, List.mem_cons] at hw
    push_neg at hw
    have hv : ¬ v = w := fun h => hw.1 h.symm
    simp [bump, hv, ih hw.2]

theorem insDesc_perm (x : Str × Nat) (t : List (Str × Nat)) :
    List.Perm (insDesc x t) (x :: t) := by
  induction t with
  | nil => simp [insDesc]
  | cons y ys ih =>
    by_cases h : y.2 ≤ x.2
    · simp [insDesc, h]
    · simp only [insDesc, if_neg h]
      exact (ih.cons y).trans (List.Perm.swap x y ys)

theorem sortDesc_perm (l : List (Str × Nat)) : List.Perm (sortDesc l) l := by
  induction l with
  | nil => simp [sortDesc]
  | cons x xs ih => exact (insDesc_perm x (sortDesc xs)).trans (ih.cons x)

theorem insDesc_pairwise (x : Str × Nat) (t : List (Str × Nat))
    (ht : t.Pairwise (fun p q => q.2 ≤ p.2)) :
    (insDesc x t).Pairwise (fun p q => q.2 ≤ p.2) := by
  induction t with
  | nil => simp [insDesc]
  | cons y ys ih =>
    rcases List.pairwise_cons.mp ht with ⟨hy, hys⟩
    by_cases h : y.2 ≤ x.2
    · simp only [insDesc, if_pos h]
      refine List.pairwise_cons.mpr ⟨?_, ht⟩
      intro z hz
      rcases List.mem_cons.mp hz with h' | h'
      · subst h'; exact h
      · exact le_trans (hy z h') h
    · simp only [insDesc, if_neg h]
      refine List.pairwise_cons.mpr ⟨?_, ih hys⟩
      intro z hz
      rcases List.mem_cons.mp ((insDesc_perm x ys).mem_iff.mp hz) with h' | h'
      · subst h'; exact le_of_lt (Nat.lt_of_not_le h)
      · exact hy z h'

theorem sortDesc_pairwise (l : List (Str × Nat)) :
    (sortDesc l).Pairwise (fun p q => q.2 ≤ p.2) := by
  induction l with
  | nil => simp [sortDesc]
  | cons x xs ih => exact insDesc_pairwise x (sortDesc xs) ih

theorem sublist_insDesc (x : Str × Nat) (s t : List (Str × Nat))
    (hs : List.Sublist s t) : List.Sublist s (insDesc x t) := by
  induction t generalizing s with
  | nil =>
    simp only [List.sublist_nil] at hs
    subst hs
    exact List.nil_sublist _
  | cons y ys ih =>
    by_cases h : y.2 ≤ x.2
    · simpa [insDesc, h] using hs.cons x
    · simp only [insDesc, if_neg h]
      rcases List.sublist_cons_iff.mp hs with h' | ⟨s', rfl, h'⟩
      · exact (ih s h').cons y
      · exact (ih s' h').cons₂ y

theorem pair_sublist_insDesc (x b : Str × Nat) (t : List (Str × Nat))
    (hb : b ∈ t) (hle : b.2 ≤ x.2) : List.Sublist [x, b] (insDesc x t) := by
  induction t with
  | nil => simp at hb
  | cons y ys ih =>
    by_cases h : y.2 ≤ x.2
    · simp only [insDesc, if_pos h]
      exact (List.singleton_sublist.mpr hb).cons₂ x
    · simp only [insDesc, if_neg h]
      rcases List.mem_cons.mp hb with h' | h'
      · exact absurd (h' ▸ hle) (fun hc => h hc)
      · exact (ih h').cons y

theorem sortDesc_stable (l : List (Str × Nat)) (a b : Str × Nat)
    (hab : List.Sublist [a, b] l) (hle : b.2 ≤ a.2) :
    List.Sublist [a, b] (sortDesc l) := by
  induction l with
  | nil => simp at hab
  | cons x xs ih =>
    rcases List.sublist_cons_iff.mp hab with h | ⟨s', hs', h⟩
    · exact sublist_insDesc x _ _ (ih h)
    · injection hs' with ha hs2
      subst ha
      subst hs2
      have hbmem : b ∈ sortDesc xs :=
        (sortDesc_perm xs).mem_iff.mpr (List.singleton_sublist.mp h)
      exact pair_sublist_insDesc a b (sortDesc xs) hbmem hle

theorem pair_order_of_mem (l : List (Str × Nat)) (a b : Str × Nat)
    (ha : a ∈ l) (hb : b ∈ l) (hne : a ≠ b) :
    List.Sublist [a, b] l ∨ List.Sublist [b, a] l := by
  induction l with
  | nil => simp at ha
  | cons x xs ih =>
    rcases List.mem_cons.mp ha with h1 | h1
    · subst h1
      rcases List.mem_cons.mp hb with h2 | h2
      · exact absurd h2.symm hne
      · exact Or.inl ((List.singleton_sublist.mpr h2).cons₂ a)
    · rcases List.mem_cons.mp hb with h2 | h2
      · subst h2
        exact Or.inr ((List.singleton_sublist.mpr h1).cons₂ b)
      · rcases ih h1 h2 with h | h
        · exact Or.inl (h.cons x)
        · exact Or.inr (h.cons x)

/-- Index of the first occurrence of `k` in a token list (used to state the
first-encounter tie-breaking order). -/
def firstIdx (k : Str) : List Str → Nat
  | [] => 0
  | x :: xs => if x = k then 0 else firstIdx k xs + 1

theorem firstIdx_append_of_mem (k : Str) (l₁ l₂ : List Str) (h : k ∈ l₁) :
    firstIdx k (l₁ ++ l₂) = firstIdx k l₁ := by
  induction l₁ with
  | nil => simp at h
  | cons x xs ih =>
    by_cases hx : x = k
    · simp [firstIdx, hx]
    · rcases List.mem_cons.mp h with h' | h'
      · exact absurd h'.symm hx
      · simp [firstIdx, hx, ih h']

theorem firstIdx_append_of_not_mem (k : Str) (l₁ l₂ : List Str) (h : k ∉ l₁) :
    firstIdx k (l₁ ++ l₂) = l₁.length + firstIdx k l₂ := by
  induction l₁ with
  | nil => simp
  | cons x xs ih =>
    have hx : ¬ x = k := fun hc => h (by simp [hc])
    have hxs : k ∉ xs := fun hc => h (List.mem_cons_of_mem _ hc)
    simp [firstIdx, hx, ih hxs]
    omega

theorem firstIdx_lt_length (k : Str) (l : List Str) (h : k ∈ l) :
    firstIdx k l < l.length := by
  induction l with
  | nil => simp at h
  | cons x xs ih =>
    by_cases hx : x = k
    · simp [firstIdx, hx]
    · rcases List.mem_cons.mp h with h' | h'
      · exact absurd h'.symm hx
      · simpa [firstIdx, hx] using ih h'

theorem countsOf_loop_inv (ws : List Str) (acc : List (Str × Nat)) (processed : List Str)
    (h1 : ∀ p ∈ acc, p.1 ∈ processed)
    (h2 : ∀ x ∈ processed, x ∈ acc.map Prod.fst)
    (h3 : (acc.map Prod.fst).Nodup)
    (h4 : (acc.map Prod.fst).Pairwise
      (fun k k' => firstIdx k processed < firstIdx k' processed)) :
    (∀ p ∈ ws.foldl (fun a w => bump w a) acc, p.1 ∈ processed ++ ws) ∧
    (((ws.foldl (fun a w => bump w a) acc).map Prod.fst).Nodup) ∧
    (((ws.foldl (fun a w => bump w a) acc).map Prod.fst).Pairwise
      (fun k k' => firstIdx k (processed ++ ws) < firstIdx k' (processed ++ ws))) := by
  induction ws generalizing acc processed with
  | nil =>
    simp only [List.foldl_nil, List.append_nil]
    exact ⟨h1, h3, h4⟩
  | cons w ws' ih =>
    have hkeys_sub : ∀ k ∈ acc.map Prod.fst, k ∈ processed := by
      intro k hk
      rcases List.mem_map.mp hk with ⟨p, hp, rfl⟩
      exact h1 p hp
    have step := ih (bump w acc) (processed ++ [w]) ?_ ?_ ?_ ?_
    · have hassoc : (processed ++ [w]) ++ ws' = processed ++ w :: ws' := by simp
      rw [hassoc] at step
      simpa using step
    · intro p hp
      rcases bump_fst_mem w acc p hp with h | h
      · simp [h]
      · exact List.mem_append_left _ (h1 p h)
    · intro x hx
      rw [bump_map_fst]
      rcases List.mem_append.mp hx with h | h
      · have := h2 x h
        by_cases hw : w ∈ acc.map Prod.fst
        · simpa [hw] using this
        · simp only [if_neg hw]
          exact List.mem_append_left _ this
      · simp only [List.mem_singleton] at h
        subst h
        by_cases hw : x ∈ acc.map Prod.fst
        · simp [hw]
        · simp [hw]
    · rw [bump_map_fst]
      by_cases hw : w ∈ acc.map Prod.fst
      · simpa [hw] using h3
      · simp only [if_neg hw]
        exact List.Nodup.append h3 (List.nodup_singleton w)
          (by intro x hx hmem
              simp only [List.mem_singleton] at hmem
              exact hw (hmem ▸ hx))
    · rw [bump_map_fst]
      by_cases hw : w ∈ acc.map Prod.fst
      · simp only [if_pos hw]
        refine List.Pairwise.imp_of_mem ?_ h4
        intro a b ha hb hr
        rw [firstIdx_append_of_mem a processed [w] (hkeys_sub a ha),
          firstIdx_append_of_mem b processed [w] (hkeys_sub b hb)]
        exact hr
      · simp only [if_neg hw]
        have hwnp : w ∉ processed := fun hc => hw (h2 w hc)
        refine List.pairwise_append.mpr ⟨?_, List.pairwise_singleton _ _, ?_⟩
        · refine List.Pairwise.imp_of_mem ?_ h4
          intro a b ha hb hr
          rw [firstIdx_append_of_mem a processed [w] (hkeys_sub a ha),
            firstIdx_append_of_mem b processed [w] (hkeys_sub b hb)]
          exact hr
        · intro a ha b hb
          simp only [List.mem_singleton] at hb
          subst hb
          rw [firstIdx_append_of_mem a processed [b] (hkeys_sub a ha),
            firstIdx_append_of_not_mem b processed [b] hwnp]
          exact Nat.lt_of_lt_of_le (firstIdx_lt_length a processed (hkeys_sub a ha))
            (Nat.le_add_right _ _)

theorem countsOf_fst_mem (ws : List Str) (p : Str × Nat) (hp : p ∈ countsOf ws) :
    p.1 ∈ ws := by
  have := (countsOf_loop_inv ws [] [] (by simp) (by simp) (by simp) (by simp)).1
  simpa using this p hp

theorem countsOf_keys_nodup (ws : List Str) : ((countsOf ws).map Prod.fst).Nodup := by
  have := (countsOf_loop_inv ws [] [] (by simp) (by simp) (by simp) (by simp)).2.1
  simpa [countsOf] using this

theorem countsOf_firstEncounter (ws : List Str) :
    ((countsOf ws).map Prod.fst).Pairwise
      (fun k k' => firstIdx k ws < firstIdx k' ws) := by
  have := (countsOf_loop_inv ws [] [] (by simp) (by simp) (by simp) (by simp)).2.2
  simpa [countsOf] using this

theorem sublist_pair_antisymm (l : List (Str × Nat)) (a b : Str × Nat)
    (hnd : l.Nodup) (h1 : List.Sublist [a, b] l) (h2 : List.Sublist [b, a] l) :
    False := by
  induction l with
  | nil => simp at h1
  | cons c cs ih =>
    rcases List.pairwise_cons.mp hnd with ⟨hc, hnd'⟩
    rcases List.sublist_cons_iff.mp h1 with g1 | ⟨s1, hs1, g1⟩
    · rcases List.sublist_cons_iff.mp h2 with g2 | ⟨s2, hs2, g2⟩
      · exact ih hnd' g1 g2
      · injection hs2 with hb hs2'
        have hbcs : b ∈ cs := (g1.subset) (by simp)
        exact (hc b hbcs) hb.symm
    · injection hs1 with ha hs1'
      rcases List.sublist_cons_iff.mp h2 with g2 | ⟨s2, hs2, g2⟩
      · have hacs : a ∈ cs := (g2.subset) (by simp)
        exact (hc a hacs) ha.symm
      · injection hs2 with hb hs2'
        rw [← hs2'] at g2
        have hacs : a ∈ cs := List.singleton_sublist.mp g2
        exact (hc a hacs) ha.symm

/-- C7: `extract_key_concepts(text, n)` returns at most `n` terms; every
returned term is a token of the lowercased text that passes the filter (not a
stopword after lowering, length greater than 2, alphanumeric); the underlying
count list is sorted by descending frequency with ties broken by the first-encounter position of each term in the filtered token stream; empty input yields an
empty list. -/
theorem extract_key_concepts_spec (word_tokenize : Str → List Str)
    (stop_words : List Str) (text : Str) (num_concepts : Nat) :
    (extract_key_concepts word_tokenize stop_words text num_concepts).length
        ≤ num_concepts ∧
    (∀ w ∈ extract_key_concepts word_tokenize stop_words text num_concepts,
      w ∈ word_tokenize (lowerL text) ∧ stop_words.contains (lowerL w) = false ∧
        2 < w.length ∧ isAlnumStr w = true) ∧
    (conceptCounts word_tokenize stop_words text).Pairwise (fun p q => q.2 ≤ p.2) ∧
    (∀ a b, List.Sublist [a, b] (conceptCounts word_tokenize stop_words text) →
      a.2 = b.2 →
      firstIdx a.1 (filteredTokens word_tokenize stop_words text)
        < firstIdx b.1 (filteredTokens word_tokenize stop_words text)) ∧
    (text = [] → extract_key_concepts word_tokenize stop_words text num_concepts = []) := by
  refine ⟨?_, ?_, sortDesc_pairwise _, ?_, fun h => by simp [extract_key_concepts, h]⟩
  · by_cases h : text = []
    · simp [extract_key_concepts, h]
    · simp only [extract_key_concepts, if_neg h, List.length_map, List.length_take]
      exact min_le_left _ _
  · intro w hw
    have hw' : ∃ p ∈ (conceptCounts word_tokenize stop_words text).take num_concepts,
        p.1 = w := by
      by_cases h : text = []
      · simp [extract_key_concepts, h] at hw
      · simp only [extract_key_concepts, if_neg h] at hw
        exact List.mem_map.mp hw
    rcases hw' with ⟨p, hp, rfl⟩
    have hpc : p ∈ countsOf (filteredTokens word_tokenize stop_words text) :=
      (sortDesc_perm _).mem_iff.mp (List.mem_of_mem_take hp)
    have hpf : p.1 ∈ filteredTokens word_tokenize stop_words text :=
      countsOf_fst_mem _ p hpc
    rcases List.mem_filter.mp hpf with ⟨hmem, hkeep⟩
    simp only [keepToken, Bool.and_eq_true, Bool.not_eq_true'] at hkeep
    exact ⟨hmem, hkeep.1.1, of_decide_eq_true hkeep.1.2, hkeep.2⟩
  · intro a b hab heq
    have hnd : (countsOf (filteredTokens word_tokenize stop_words text)).Nodup :=
      (countsOf_keys_nodup _).of_map _
    have hnds : (conceptCounts word_tokenize stop_words text).Nodup :=
      (sortDesc_perm _).nodup_iff.mpr hnd
    have hne : a ≠ b := by
      have := List.Pairwise.sublist hab hnds
      exact (List.pairwise_cons.mp this).1 b (by simp)
    have hasub := hab.subset
    have hasort : a ∈ conceptCounts word_tokenize stop_words text := hasub (by simp)
    have hbsort : b ∈ conceptCounts word_tokenize stop_words text := hasub (by simp)
    have hamem : a ∈ countsOf (filteredTokens word_tokenize stop_words text) :=
      (sortDesc_perm _).mem_iff.mp hasort
    have hbmem : b ∈ countsOf (filteredTokens word_tokenize stop_words text) :=
      (sortDesc_perm _).mem_iff.mp hbsort
    rcases pair_order_of_mem _ a b hamem hbmem hne with hor | hor
    · have hmap := hor.map Prod.fst
      have hpw := List.Pairwise.sublist hmap
        (countsOf_firstEncounter (filteredTokens word_tokenize stop_words text))
      exact (List.pairwise_cons.mp hpw).1 b.1 (by simp)
    · exfalso
      have hba : List.Sublist [b, a] (conceptCounts word_tokenize stop_words text) :=
        sortDesc_stable _ b a hor (le_of_eq heq)
      exact sublist_pair_antisymm _ a b hnds hab hba

/-- Witness for C7 at a concrete tokenizer, stopword list and input. -/
theorem extract_key_concepts_spec_witness :
    str "banana" ∈ spaceWords (lowerL (str "banana the banana fruit")) ∧
      [str "the"].contains (lowerL (str "banana")) = false ∧
      2 < (str "banana").length ∧ isAlnumStr (str "banana") = true :=
  (extract_key_concepts_spec spaceWords [str "the"]
      (str "banana the banana fruit") 10).2.1 (str "banana") (by decide)

end ConceptExtractor

section Normalizer

/-!
`TextProcessor._clean_text` (file_processor.py, lines 122-143): NFKD
normalization with ASCII projection, removal of every `http\S+` match,
replacement of every `[\n\t]+` run and of every whitespace run of length
at least 2 by a single space, then `strip()`.
-/

/-- Does a match of the regex `http\S+` start at the current position
(character `c`, remaining input `cs`)?  It requires the literal `http`
followed by at least one non-whitespace character. -/
def urlStart (c : Char) (cs : List Char) : Bool :=
  c == 'h' && cs.take 3 == ['t', 't', 'p'] &&
    !(cs.drop 3).isEmpty && !(isSpace ((cs.drop 3).headD ' '))

/-- Left-to-right scan removing every `http\S+` match.  The state is
`none` while scanning; after a match starts, `some k` says `k` characters of
the literal `ttp` remain to be dropped, and `some 0` drops the rest of the
matched non-whitespace run. -/
def remA : Option Nat → List Char → List Char
  | _, [] => []
  | none, c :: cs => if urlStart c cs then remA (some 3) cs else c :: remA none cs
  | some (k + 1), _ :: cs => remA (some k) cs
  | some 0, c :: cs => if isSpace c then c :: remA none cs else remA (some 0) cs

/-- The URL-removal pass of `_clean_text`. -/
def removeUrls (l : List Char) : List Char := remA none l

/-- Characters collapsed by the newline/tab substitution pass. -/
def isNT (c : Char) : Bool := c == '\n' || c == '\t'

/-- Left-to-right scan replacing each `[\n\t]+` run by one space; the flag is true
inside a run whose single replacement space has already been emitted. -/
def cntA : Bool → List Char → List Char
  | _, [] => []
  | b, c :: cs =>
    if isNT c then (if b then cntA true cs else ' ' :: cntA true cs)
    else c :: cntA false cs

/-- The newline/tab substitution pass of `_clean_text`. -/
def collapseNT (l : List Char) : List Char := cntA false l

/-- Left-to-right scan replacing each whitespace run of length at least 2
by one space; the flag is true
inside a whitespace run of length at least 2 whose single replacement space
has already been emitted.  A lone whitespace character is not a match and is
kept as-is. -/
def cwsA : Bool → List Char → List Char
  | _, [] => []
  | true, c :: cs => if isSpace c then cwsA true cs else c :: cwsA false cs
  | false, c :: cs =>
    if isSpace c then
      match cs with
      | [] => [c]
      | d :: _ => if isSpace d then ' ' :: cwsA true cs else c :: cwsA false cs
    else c :: cwsA false cs

/-- The whitespace-collapsing pass of `_clean_text`. -/
def collapseWS (l : List Char) : List Char := cwsA false l

/-- `TextProcessor._clean_text`.  The NFKD pass
`unicodedata.normalize(NFKD, text)` is the parameter `nfkd` (an external
library call); the subsequent `.encode(ascii, ignore)` keeps exactly the
characters with code point below 128. -/
def _clean_text (nfkd : List Char → List Char) (text : List Char) : List Char :=
  pyStrip (collapseWS (collapseNT (removeUrls
    ((nfkd text).filter (fun c => decide (c.toNat < 128))))))

/-- No match of `http\S+` starts anywhere in the list. -/
def noUrl : List Char → Prop
  | [] => True
  | c :: cs => urlStart c cs = false ∧ noUrl cs

theorem urlStart_of_ne_h (c : Char) (cs : List Char) (h : ¬ c = 'h') :
    urlStart c cs = false := by
  simp [urlStart, h]

theorem isSpace_h : isSpace 'h' = false := by decide

theorem urlStart_of_space (c : Char) (cs : List Char) (h : isSpace c = true) :
    urlStart c cs = false := by
  refine urlStart_of_ne_h c cs ?_
  intro hc
  rw [hc, isSpace_h] at h
  cases h

theorem urlStart_cons_pattern (d : Char) (s : List Char) :
    urlStart 'h' ('t' :: 't' :: 'p' :: d :: s) = !(isSpace d) := by
  simp [urlStart]

theorem urlStart_true_elim (c : Char) (cs : List Char) (h : urlStart c cs = true) :
    c = 'h' ∧ ∃ d s, cs = 't' :: 't' :: 'p' :: d :: s ∧ isSpace d = false := by
  simp only [urlStart, Bool.and_eq_true, beq_iff_eq, Bool.not_eq_true'] at h
  obtain ⟨⟨⟨hc, htake⟩, hne⟩, hhead⟩ := h
  refine ⟨hc, ?_⟩
  match cs, htake, hne, hhead with
  | a :: b :: e :: d :: s, htake, _, hhead =>
    simp only [List.take, List.cons.injEq] at htake
    obtain ⟨rfl, rfl, rfl, -⟩ := htake
    exact ⟨d, s, rfl, by simpa using hhead⟩
  | a :: b :: e :: [], htake, hne, _ => simp at hne
  | a :: b :: [], htake, _, _ => simp [List.take] at htake
  | a :: [], htake, _, _ => simp [List.take] at htake
  | [], htake, _, _ => simp [List.take] at htake

theorem noUrl_iff (l : List Char) :
    noUrl l ↔ ∀ p d s, l = p ++ 'h' :: 't' :: 't' :: 'p' :: d :: s →
      isSpace d = true := by
  induction l with
  | nil =>
    simp only [noUrl, true_iff]
    intro p d s h
    exact absurd h.symm (by simp)
  | cons c cs ih =>
    constructor
    · rintro ⟨hu, htail⟩ p d s heq
      match p, heq with
      | [], heq =>
        simp only [List.nil_append, List.cons.injEq] at heq
        obtain ⟨rfl, rfl⟩ := heq
        rw [urlStart_cons_pattern] at hu
        simpa using hu
      | q :: p', heq =>
        simp only [List.cons_append, List.cons.injEq] at heq
        exact (ih.mp htail) p' d s heq.2
    · intro h
      refine ⟨?_, ih.mpr (fun p d s hp => h (c :: p) d s (by simp [hp]))⟩
      by_contra hu
      rw [Bool.not_eq_false] at hu
      obtain ⟨rfl, d, s, rfl, hd⟩ := urlStart_true_elim c _ hu
      have := h [] d s rfl
      rw [this] at hd
      cases hd

theorem noUrl_of_surround (l a m b : List Char) (hl : noUrl l)
    (heq : l = a ++ m ++ b) : noUrl m := by
  rw [noUrl_iff] at hl ⊢
  intro p d s hp
  exact hl (a ++ p) d (s ++ b) (by simp [heq, hp])

theorem remA_chars (l : List Char) (m : Option Nat) (x : Char)
    (hx : x ∈ remA m l) : x ∈ l := by
  induction l generalizing m with
  | nil => simp [remA] at hx
  | cons c cs ih =>
    match m with
    | none =>
      by_cases h : urlStart c cs = true
      · simp only [remA, if_pos h] at hx
        exact List.mem_cons_of_mem _ (ih _ hx)
      · simp only [remA, if_neg h] at hx
        rcases List.mem_cons.mp hx with h' | h'
        · simp [h']
        · exact List.mem_cons_of_mem _ (ih _ h')
    | some 0 =>
      by_cases h : isSpace c = true
      · simp only [remA, if_pos h] at hx
        rcases List.mem_cons.mp hx with h' | h'
        · simp [h']
        · exact List.mem_cons_of_mem _ (ih _ h')
      · simp only [remA, if_neg h] at hx
        exact List.mem_cons_of_mem _ (ih _ hx)
    | some (k + 1) =>
      simp only [remA] at hx
      exact List.mem_cons_of_mem _ (ih _ hx)

theorem remA_nil (m : Option Nat) : remA m [] = [] := by
  match m with
  | none => rfl
  | some 0 => rfl
  | some (k + 1) => rfl

theorem remA_drop_head (l : List Char) (k : Nat) :
    remA (some k) l = [] ∨ isSpace ((remA (some k) l).headD ' ') = true := by
  induction l generalizing k with
  | nil => exact Or.inl (remA_nil _)
  | cons c cs ih =>
    match k with
    | 0 =>
      by_cases h : isSpace c = true
      · simp only [remA, if_pos h]
        exact Or.inr (by simpa using h)
      · simp only [remA, if_neg h]
        exact ih 0
    | k + 1 =>
      simp only [remA]
      exact ih k

theorem remA_none_front (l pre t : List Char)
    (heq : pre ++ t = remA none l) (hns : ∀ a ∈ pre, isSpace a = false) :
    ∃ t', pre ++ t' = l := by
  induction l generalizing pre t with
  | nil =>
    simp only [remA, List.append_eq_nil] at heq
    exact ⟨[], by simp [heq.1]⟩
  | cons c cs ih =>
    by_cases h : urlStart c cs = true
    · simp only [remA, if_pos h] at heq
      rcases remA_drop_head cs 3 with hr | hr
      · rw [hr, List.append_eq_nil] at heq
        exact ⟨c :: cs, by simp [heq.1]⟩
      · match pre, heq with
        | [], _ => exact ⟨c :: cs, rfl⟩
        | a :: pre', heq =>
          exfalso
          have hhead : (remA (some 3) cs).headD ' ' = a := by
            rw [← heq]; simp
          rw [hhead] at hr
          have := hns a (by simp)
          rw [this] at hr
          cases hr
    · simp only [remA, if_neg h] at heq
      match pre, heq with
      | [], _ => exact ⟨c :: cs, rfl⟩
      | a :: pre', heq =>
        simp only [List.cons_append, List.cons.injEq] at heq
        obtain ⟨rfl, heq'⟩ := heq
        obtain ⟨t', ht'⟩ := ih pre' t heq' (fun x hx => hns x (List.mem_cons_of_mem _ hx))
        exact ⟨t', by simp [ht']⟩

theorem remA_none_of_noUrl (l : List Char) (h : noUrl l) : remA none l = l := by
  induction l with
  | nil => rfl
  | cons c cs ih =>
    obtain ⟨hu, htail⟩ := h
    simp [remA, hu, ih htail]

theorem noUrl_remA (l : List Char) (m : Option Nat) : noUrl (remA m l) := by
  induction l generalizing m with
  | nil =>
    rw [remA_nil]
    trivial
  | cons c cs ih =>
    match m with
    | none =>
      by_cases h : urlStart c cs = true
      · simp only [remA, if_pos h]
        exact ih _
      · simp only [remA, if_neg h]
        refine ⟨?_, ih none⟩
        by_contra hu
        rw [Bool.not_eq_false] at hu
        obtain ⟨rfl, d, s, hcs, hd⟩ := urlStart_true_elim c _ hu
        obtain ⟨t', ht'⟩ := remA_none_front cs ['t', 't', 'p', d] s
          (by simpa using hcs.symm) (by
            intro a ha
            simp only [List.mem_cons] at ha
            rcases ha with rfl | rfl | rfl | rfl | ha
            · decide
            · decide
            · decide
            · exact hd
            · simp at ha)
        have : urlStart 'h' cs = true := by
          rw [← ht']
          simpa [urlStart_cons_pattern] using hd
        rw [this] at h
        exact h rfl
    | some 0 =>
      by_cases h : isSpace c = true
      · simp only [remA, if_pos h]
        exact ⟨urlStart_of_space c _ h, ih none⟩
      · simp only [remA, if_neg h]
        exact ih _
    | some (k + 1) =>
      simp only [remA]
      exact ih _

theorem cntA_chars (l : List Char) (b : Bool) (x : Char) (hx : x ∈ cntA b l) :
    x ∈ l ∨ x = ' ' := by
  induction l generalizing b with
  | nil => simp [cntA] at hx
  | cons c cs ih =>
    by_cases h : isNT c = true
    · simp only [cntA, if_pos h] at hx
      match b, hx with
      | true, hx =>
        rcases ih true hx with h' | h'
        · exact Or.inl (List.mem_cons_of_mem _ h')
        · exact Or.inr h'
      | false, hx =>
        rcases List.mem_cons.mp hx with h' | h'
        · exact Or.inr h'
        · rcases ih true h' with h'' | h''
          · exact Or.inl (List.mem_cons_of_mem _ h'')
          · exact Or.inr h''
    · simp only [cntA, if_neg h] at hx
      rcases List.mem_cons.mp hx with h' | h'
      · exact Or.inl (by simp [h'])
      · rcases ih false h' with h'' | h''
        · exact Or.inl (List.mem_cons_of_mem _ h'')
        · exact Or.inr h''

theorem cntA_no_nt (l : List Char) (b : Bool) (x : Char) (hx : x ∈ cntA b l) :
    isNT x = false := by
  induction l generalizing b with
  | nil => simp [cntA] at hx
  | cons c cs ih =>
    by_cases h : isNT c = true
    · simp only [cntA, if_pos h] at hx
      match b, hx with
      | true, hx => exact ih true hx
      | false, hx =>
        rcases List.mem_cons.mp hx with h' | h'
        · subst h'; decide
        · exact ih true h'
    · simp only [cntA, if_neg h] at hx
      rcases List.mem_cons.mp hx with h' | h'
      · subst h'
        simpa using h
      · exact ih false h'

theorem cntA_eq_self (l : List Char) (h : ∀ x ∈ l, isNT x = false) :
    cntA false l = l := by
  induction l with
  | nil => rfl
  | cons c cs ih =>
    have hc : isNT c = false := h c (by simp)
    simp only [cntA, hc, Bool.false_eq_true, if_false]
    rw [ih (fun x hx => h x (List.mem_cons_of_mem _ hx))]

theorem cntA_false_front (l pre t : List Char)
    (heq : pre ++ t = cntA false l) (hns : ∀ a ∈ pre, isSpace a = false) :
    ∃ t', pre ++ t' = l := by
  induction l generalizing pre t with
  | nil =>
    simp only [cntA, List.append_eq_nil] at heq
    exact ⟨[], by simp [heq.1]⟩
  | cons c cs ih =>
    by_cases h : isNT c = true
    · simp only [cntA, if_pos h] at heq
      match pre, heq with
      | [], _ => exact ⟨c :: cs, rfl⟩
      | a :: pre', heq =>
        exfalso
        have : a = ' ' := by
          have := congrArg (fun l => l.headD ' ') heq
          simpa using this
        have hsp := hns a (by simp)
        rw [this] at hsp
        cases hsp
    · simp only [cntA, if_neg h] at heq
      match pre, heq with
      | [], _ => exact ⟨c :: cs, rfl⟩
      | a :: pre', heq =>
        simp only [List.cons_append, List.cons.injEq] at heq
        obtain ⟨rfl, heq'⟩ := heq
        obtain ⟨t', ht'⟩ := ih pre' t heq' (fun x hx => hns x (List.mem_cons_of_mem _ hx))
        exact ⟨t', by simp [ht']⟩

theorem noUrl_cntA (l : List Char) (b : Bool) (h : noUrl l) : noUrl (cntA b l) := by
  induction l generalizing b with
  | nil => simpa [cntA] using trivial
  | cons c cs ih =>
    obtain ⟨hu, htail⟩ := h
    by_cases h : isNT c = true
    · simp only [cntA, if_pos h]
      match b with
      | true => exact ih true htail
      | false =>
        refine ⟨urlStart_of_space ' ' _ (by decide), ih true htail⟩
    · simp only [cntA, if_neg h]
      refine ⟨?_, ih false htail⟩
      by_contra hu'
      rw [Bool.not_eq_false] at hu'
      obtain ⟨rfl, d, s, hcs, hd⟩ := urlStart_true_elim c _ hu'
      obtain ⟨t', ht'⟩ := cntA_false_front cs ['t', 't', 'p', d] s
        (by simpa using hcs.symm) (by
          intro a ha
          simp only [List.mem_cons] at ha
          rcases ha with rfl | rfl | rfl | rfl | ha
          · decide
          · decide
          · decide
          · exact hd
          · simp at ha)
      have : urlStart 'h' cs = true := by
        rw [← ht']
        simpa [urlStart_cons_pattern] using hd
      rw [this] at hu
      cases hu

/-- No two adjacent whitespace characters (so `\s{2,}` has no match). -/
def noDouble : List Char → Prop
  | [] => True
  | [_] => True
  | c :: d :: cs => ¬(isSpace c = true ∧ isSpace d = true) ∧ noDouble (d :: cs)

theorem noDouble_cons (x : Char) (M : List Char)
    (h : isSpace x = false ∨ M = [] ∨ isSpace (M.headD ' ') = false)
    (hM : noDouble M) : noDouble (x :: M) := by
  match M with
  | [] => trivial
  | y :: ys =>
    refine ⟨?_, hM⟩
    rintro ⟨hx, hy⟩
    rcases h with h | h | h
    · rw [hx] at h; cases h
    · cases h
    · simp only [List.headD_cons] at h
      rw [hy] at h
      cases h

theorem noDouble_tail (c : Char) (cs : List Char) (h : noDouble (c :: cs)) :
    noDouble cs := by
  match cs with
  | [] => trivial
  | d :: ds => exact h.2

theorem cwsA_nil (b : Bool) : cwsA b [] = [] := by
  match b with
  | true => rfl
  | false => rfl

theorem cwsA_true_space (c : Char) (cs : List Char) (h : isSpace c = true) :
    cwsA true (c :: cs) = cwsA true cs := by
  simp [cwsA, h]

theorem cwsA_nonspace (b : Bool) (c : Char) (cs : List Char) (h : isSpace c = false) :
    cwsA b (c :: cs) = c :: cwsA false cs := by
  match b with
  | true => simp [cwsA, h]
  | false => simp [cwsA, h]

theorem cwsA_false_single (c : Char) (h : isSpace c = true) :
    cwsA false [c] = [c] := by
  simp [cwsA, h]

theorem cwsA_false_run (c d : Char) (ds : List Char)
    (hc : isSpace c = true) (hd : isSpace d = true) :
    cwsA false (c :: d :: ds) = ' ' :: cwsA true (d :: ds) := by
  simp [cwsA, hc, hd]

theorem cwsA_false_lone (c d : Char) (ds : List Char)
    (hc : isSpace c = true) (hd : isSpace d = false) :
    cwsA false (c :: d :: ds) = c :: cwsA false (d :: ds) := by
  simp [cwsA, hc, hd]

theorem cwsA_true_head (l : List Char) :
    cwsA true l = [] ∨ isSpace ((cwsA true l).headD ' ') = false := by
  induction l with
  | nil => exact Or.inl (cwsA_nil true)
  | cons c cs ih =>
    by_cases h : isSpace c = true
    · rw [cwsA_true_space c cs h]
      exact ih
    · rw [cwsA_nonspace true c cs (by simpa using h)]
      exact Or.inr (by simpa using h)

theorem cwsA_chars (l : List Char) (b : Bool) (x : Char) (hx : x ∈ cwsA b l) :
    x ∈ l ∨ x = ' ' := by
  induction l generalizing b with
  | nil => rw [cwsA_nil] at hx; simp at hx
  | cons c cs ih =>
    by_cases h : isSpace c = true
    · match b with
      | true =>
        rw [cwsA_true_space c cs h] at hx
        rcases ih true hx with h' | h'
        · exact Or.inl (List.mem_cons_of_mem _ h')
        · exact Or.inr h'
      | false =>
        match cs with
        | [] =>
          rw [cwsA_false_single c h] at hx
          rcases List.mem_cons.mp hx with h' | h'
          · exact Or.inl (by simp [h'])
          · simp at h'
        | d :: ds =>
          by_cases hd : isSpace d = true
          · rw [cwsA_false_run c d ds h hd] at hx
            rcases List.mem_cons.mp hx with h' | h'
            · exact Or.inr h'
            · rcases ih true h' with h'' | h''
              · exact Or.inl (List.mem_cons_of_mem _ h'')
              · exact Or.inr h''
          · rw [cwsA_false_lone c d ds h (by simpa using hd)] at hx
            rcases List.mem_cons.mp hx with h' | h'
            · exact Or.inl (by simp [h'])
            · rcases ih false h' with h'' | h''
              · exact Or.inl (List.mem_cons_of_mem _ h'')
              · exact Or.inr h''
    · rw [cwsA_nonspace b c cs (by simpa using h)] at hx
      rcases List.mem_cons.mp hx with h' | h'
      · exact Or.inl (by simp [h'])
      · rcases ih false h' with h'' | h''
        · exact Or.inl (List.mem_cons_of_mem _ h'')
        · exact Or.inr h''

theorem noDouble_cwsA (l : List Char) (b : Bool) : noDouble (cwsA b l) := by
  induction l generalizing b with
  | nil => rw [cwsA_nil]; trivial
  | cons c cs ih =>
    by_cases h : isSpace c = true
    · match b with
      | true =>
        rw [cwsA_true_space c cs h]
        exact ih true
      | false =>
        match cs with
        | [] =>
          rw [cwsA_false_single c h]
          trivial
        | d :: ds =>
          by_cases hd : isSpace d = true
          · rw [cwsA_false_run c d ds h hd]
            refine noDouble_cons ' ' _ ?_ (ih true)
            rcases cwsA_true_head (d :: ds) with h' | h'
            · exact Or.inr (Or.inl h')
            · exact Or.inr (Or.inr h')
          · rw [cwsA_false_lone c d ds h (by simpa using hd)]
            refine noDouble_cons c _ ?_ (ih false)
            rw [cwsA_nonspace false d ds (by simpa using hd)]
            exact Or.inr (Or.inr (by simpa using hd))
    · rw [cwsA_nonspace b c cs (by simpa using h)]
      exact noDouble_cons c _ (Or.inl (by simpa using h)) (ih false)

theorem cwsA_eq_self (l : List Char) (h : noDouble l) : cwsA false l = l := by
  induction l with
  | nil => rfl
  | cons c cs ih =>
    by_cases hc : isSpace c = true
    · match cs with
      | [] => exact cwsA_false_single c hc
      | d :: ds =>
        have hd : isSpace d = false := by
          by_contra hd'
          rw [Bool.not_eq_false] at hd'
          exact h.1 ⟨hc, hd'⟩
        rw [cwsA_false_lone c d ds hc hd]
        rw [ih (noDouble_tail c _ h)]
    · rw [cwsA_nonspace false c cs (by simpa using hc)]
      rw [ih (noDouble_tail c _ h)]

theorem cwsA_false_front (l pre t : List Char)
    (heq : pre ++ t = cwsA false l) (hns : ∀ a ∈ pre, isSpace a = false) :
    ∃ t', pre ++ t' = l := by
  induction l generalizing pre t with
  | nil =>
    rw [cwsA_nil] at heq
    rw [List.append_eq_nil] at heq
    exact ⟨[], by simp [heq.1]⟩
  | cons c cs ih =>
    by_cases h : isSpace c = true
    · match pre, heq with
      | [], _ => exact ⟨c :: cs, rfl⟩
      | a :: pre', heq =>
        exfalso
        have hsp := hns a (by simp)
        have ha : isSpace a = true := by
          match cs, heq with
          | [], heq =>
            rw [cwsA_false_single c h] at heq
            have := congrArg (fun l => l.headD ' ') heq
            simp at this
            rw [this]; exact h
          | d :: ds, heq =>
            by_cases hd : isSpace d = true
            · rw [cwsA_false_run c d ds h hd] at heq
              have := congrArg (fun l => l.headD ' ') heq
              simp at this
              rw [this]; decide
            · rw [cwsA_false_lone c d ds h (by simpa using hd)] at heq
              have := congrArg (fun l => l.headD ' ') heq
              simp at this
              rw [this]; exact h
        rw [ha] at hsp
        cases hsp
    · rw [cwsA_nonspace false c cs (by simpa using h)] at heq
      match pre, heq with
      | [], _ => exact ⟨c :: cs, rfl⟩
      | a :: pre', heq =>
        simp only [List.cons_append, List.cons.injEq] at heq
        obtain ⟨rfl, heq'⟩ := heq
        obtain ⟨t', ht'⟩ := ih pre' t heq' (fun x hx => hns x (List.mem_cons_of_mem _ hx))
        exact ⟨t', by simp [ht']⟩

theorem noUrl_cwsA (l : List Char) (b : Bool) (h : noUrl l) : noUrl (cwsA b l) := by
  induction l generalizing b with
  | nil => rw [cwsA_nil]; trivial
  | cons c cs ih =>
    obtain ⟨hu, htail⟩ := h
    by_cases h : isSpace c = true
    · match b with
      | true =>
        rw [cwsA_true_space c cs h]
        exact ih true htail
      | false =>
        match cs with
        | [] =>
          rw [cwsA_false_single c h]
          exact ⟨urlStart_of_space c _ h, trivial⟩
        | d :: ds =>
          by_cases hd : isSpace d = true
          · rw [cwsA_false_run c d ds h hd]
            exact ⟨urlStart_of_space ' ' _ (by decide), ih true htail⟩
          · rw [cwsA_false_lone c d ds h (by simpa using hd)]
            exact ⟨urlStart_of_space c _ h, ih false htail⟩
    · rw [cwsA_nonspace b c cs (by simpa using h)]
      refine ⟨?_, ih false htail⟩
      by_contra hu'
      rw [Bool.not_eq_false] at hu'
      obtain ⟨rfl, d, s, hcs, hd⟩ := urlStart_true_elim c _ hu'
      obtain ⟨t', ht'⟩ := cwsA_false_front cs ['t', 't', 'p', d] s
        (by simpa using hcs.symm) (by
          intro a ha
          simp only [List.mem_cons] at ha
          rcases ha with rfl | rfl | rfl | rfl | ha
          · decide
          · decide
          · decide
          · exact hd
          · simp at ha)
      have : urlStart 'h' cs = true := by
        rw [← ht']
        simpa [urlStart_cons_pattern] using hd
      rw [this] at hu
      cases hu

theorem dropWhile_head_false (p : Char → Bool) (l : List Char) (a : Char)
    (as : List Char) (h : l.dropWhile p = a :: as) : p a = false := by
  induction l with
  | nil => simp at h
  | cons c cs ih =>
    by_cases hc : p c = true
    · rw [List.dropWhile_cons, if_pos hc] at h
      exact ih h
    · rw [List.dropWhile_cons, if_neg hc] at h
      injection h with h1 h2
      rw [← h1]
      simpa using hc

theorem dropWhile_idem (p : Char → Bool) (l : List Char) :
    (l.dropWhile p).dropWhile p = l.dropWhile p := by
  match hd : l.dropWhile p with
  | [] => rfl
  | a :: as =>
    rw [List.dropWhile_cons, if_neg (by simp [dropWhile_head_false p l a as hd])]

theorem dropWhile_getLast? (p : Char → Bool) (m : List Char)
    (h : m.dropWhile p ≠ []) : (m.dropWhile p).getLast? = m.getLast? := by
  conv_rhs => rw [← List.takeWhile_append_dropWhile p m]
  rw [List.getLast?_append_of_ne_nil _ h]

theorem pyStrip_surround (l : List Char) : ∃ a b, l = a ++ pyStrip l ++ b := by
  have h2 := List.takeWhile_append_dropWhile isSpace (l.dropWhile isSpace).reverse
  have h3 : l.dropWhile isSpace
      = pyStrip l ++ ((l.dropWhile isSpace).reverse.takeWhile isSpace).reverse := by
    have := congrArg List.reverse h2
    rw [List.reverse_append, List.reverse_reverse] at this
    exact this.symm
  refine ⟨l.takeWhile isSpace,
    ((l.dropWhile isSpace).reverse.takeWhile isSpace).reverse, ?_⟩
  conv_lhs => rw [← List.takeWhile_append_dropWhile isSpace l, h3]
  rw [List.append_assoc]

theorem pyStrip_eq_self (y : List Char)
    (h1 : ∀ a, y.head? = some a → isSpace a = false)
    (h2 : ∀ a, y.getLast? = some a → isSpace a = false) : pyStrip y = y := by
  match y with
  | [] => rfl
  | c :: ys =>
    have hc : isSpace c = false := h1 c rfl
    have hd1 : List.dropWhile isSpace (c :: ys) = c :: ys := by
      rw [List.dropWhile_cons, if_neg (by simp [hc])]
    have hrev : ∀ d rs, (c :: ys).reverse = d :: rs →
        List.dropWhile isSpace (d :: rs) = d :: rs := by
      intro d rs hr
      have hd : isSpace d = false := by
        refine h2 d ?_
        rw [← List.head?_reverse, hr]
        rfl
      rw [List.dropWhile_cons, if_neg (by simp [hd])]
    unfold pyStrip
    rw [hd1]
    match hr : (c :: ys).reverse with
    | [] => simp at hr
    | d :: rs =>
      rw [hrev d rs hr, ← hr, List.reverse_reverse]

theorem pyStrip_idem (l : List Char) : pyStrip (pyStrip l) = pyStrip l := by
  refine pyStrip_eq_self (pyStrip l) ?_ ?_
  · intro a ha
    unfold pyStrip at ha
    rw [List.head?_reverse] at ha
    have hne : (l.dropWhile isSpace).reverse.dropWhile isSpace ≠ [] := by
      intro hc
      rw [hc] at ha
      simp at ha
    rw [dropWhile_getLast? isSpace _ hne, List.getLast?_reverse] at ha
    match hdw : l.dropWhile isSpace with
    | [] =>
      rw [hdw] at ha
      simp at ha
    | c :: cs =>
      rw [hdw] at ha
      simp only [List.head?_cons, Option.some.injEq] at ha
      exact ha ▸ dropWhile_head_false isSpace l c cs hdw
  · intro a ha
    unfold pyStrip at ha
    rw [List.getLast?_reverse] at ha
    match hdw : (l.dropWhile isSpace).reverse.dropWhile isSpace with
    | [] =>
      rw [hdw] at ha
      simp at ha
    | c :: cs =>
      rw [hdw] at ha
      simp only [List.head?_cons, Option.some.injEq] at ha
      exact ha ▸ dropWhile_head_false isSpace _ c cs hdw

theorem noDouble_iff (l : List Char) :
    noDouble l ↔ ∀ p c d s, l = p ++ c :: d :: s →
      ¬(isSpace c = true ∧ isSpace d = true) := by
  induction l with
  | nil =>
    simp only [noDouble, true_iff]
    intro p c d s h
    exact absurd h.symm (by simp)
  | cons c0 cs ih =>
    constructor
    · intro hnd p c d s heq
      match p, heq with
      | [], heq =>
        simp only [List.nil_append, List.cons.injEq] at heq
        obtain ⟨rfl, rfl⟩ := heq
        exact hnd.1
      | q :: p', heq =>
        simp only [List.cons_append, List.cons.injEq] at heq
        exact (ih.mp (noDouble_tail c0 cs hnd)) p' c d s heq.2
    · intro h
      match cs with
      | [] => trivial
      | d :: ds =>
        refine ⟨h [] c0 d ds rfl, ih.mpr ?_⟩
        intro p c' d' s hp
        exact h (c0 :: p) c' d' s (by simp [hp])

theorem noDouble_of_surround (l a m b : List Char) (hl : noDouble l)
    (heq : l = a ++ m ++ b) : noDouble m := by
  rw [noDouble_iff] at hl ⊢
  intro p c d s hp
  exact hl (a ++ p) c d (s ++ b) (by simp [heq, hp])

theorem removeUrls_eq_self (l : List Char) (h : noUrl l) : removeUrls l = l :=
  remA_none_of_noUrl l h

theorem collapseNT_eq_self (l : List Char) (h : ∀ x ∈ l, isNT x = false) :
    collapseNT l = l :=
  cntA_eq_self l h

theorem collapseWS_eq_self (l : List Char) (h : noDouble l) : collapseWS l = l :=
  cwsA_eq_self l h

/-- C5: the Normalizer's `_clean_text` is idempotent, for every NFKD pass
that is the identity on ASCII-only inputs (as the NFKD normalization
is, since ASCII characters have no decomposition). -/
theorem _clean_text_idempotent (nfkd : List Char → List Char)
    (hn : ∀ l, (∀ c ∈ l, c.toNat < 128) → nfkd l = l) (x : List Char) :
    _clean_text nfkd (_clean_text nfkd x) = _clean_text nfkd x := by
  unfold _clean_text
  set t1 := (nfkd x).filter (fun c => decide (c.toNat < 128)) with ht1
  set u := removeUrls t1 with hu0
  set v := collapseNT u with hv0
  set w := collapseWS v with hw0
  set y := pyStrip w with hy0
  obtain ⟨ia, ib, hinf⟩ := pyStrip_surround w
  rw [← hy0] at hinf
  have hymem : ∀ c ∈ y, c ∈ w := by
    intro c hc
    rw [hinf]
    simp [hc]
  have hwmem : ∀ c ∈ w, c ∈ v ∨ c = ' ' := fun c hc => cwsA_chars v false c hc
  have hvmem : ∀ c ∈ v, c ∈ u ∨ c = ' ' := fun c hc => cntA_chars u false c hc
  have humem : ∀ c ∈ u, c ∈ t1 := fun c hc => remA_chars t1 none c hc
  have ht1ascii : ∀ c ∈ t1, c.toNat < 128 := by
    intro c hc
    rw [ht1] at hc
    exact of_decide_eq_true (List.mem_filter.mp hc).2
  have hyascii : ∀ c ∈ y, c.toNat < 128 := by
    intro c hc
    rcases hwmem c (hymem c hc) with h | rfl
    · rcases hvmem c h with h' | rfl
      · exact ht1ascii c (humem c h')
      · decide
    · decide
  have hnoUrl_y : noUrl y := by
    have h1 : noUrl u := noUrl_remA t1 none
    have h2 : noUrl v := noUrl_cntA u false h1
    have h3 : noUrl w := noUrl_cwsA v false h2
    exact noUrl_of_surround w ia y ib h3 hinf
  have hNT_y : ∀ c ∈ y, isNT c = false := by
    intro c hc
    rcases hwmem c (hymem c hc) with h | rfl
    · exact cntA_no_nt u false c h
    · decide
  have hND_y : noDouble y := by
    have h3 : noDouble w := noDouble_cwsA v false
    exact noDouble_of_surround w ia y ib h3 hinf
  rw [hn y hyascii]
  rw [List.filter_eq_self.mpr (fun c hc => decide_eq_true (hyascii c hc))]
  rw [removeUrls_eq_self y hnoUrl_y, collapseNT_eq_self y hNT_y,
    collapseWS_eq_self y hND_y, hy0]
  exact pyStrip_idem w

/-- Witness for C5 at the identity NFKD pass and a concrete input. -/
theorem _clean_text_idempotent_witness :
    _clean_text (fun l => l)
        (_clean_text (fun l => l) (str "  a   b http://x.y  c.\n\n d "))
      = _clean_text (fun l => l) (str "  a   b http://x.y  c.\n\n d ") :=
  _clean_text_idempotent (fun l => l) (fun _ _ => rfl)
    (str "  a   b http://x.y  c.\n\n d ")

/-- C6 counterexample: on the input of Scenario A the claimed output
`"This is a test. Visit ."` is wrong — the regex `http\S+` also consumes the
period after the URL (the NFKD pass is the identity here since the input is
pure ASCII). -/
theorem _clean_text_scenarioA_counterexample :
    ¬ (_clean_text (fun l => l) (str " This is a test.\n\nVisit http://x.com. ")
        = str "This is a test. Visit .") := by
  decide

/-- C6 amended: `clean(" This is a test.\n\nVisit http://x.com. ")` returns
`"This is a test. Visit"` — `http\S+` consumes the punctuation immediately
following the URL, so it is not preserved. -/
theorem _clean_text_scenarioA :
    _clean_text (fun l => l) (str " This is a test.\n\nVisit http://x.com. ")
      = str "This is a test. Visit" := by
  decide

end Normalizer

section QuestionGeneratorSec

/-!
`QuestionGenerator` (backend/app/services/question_generator.py).  The module
is imported with `AI_AVAILABLE = False`; generation is therefore rule-based.
The NLTK `word_tokenize` used by the quality scorer and the `random.shuffle`
permutation of MCQ options are parameters.
-/

/-- The five question types handled by `generate_questions`. -/
inductive QType
  | mcq
  | true_false
  | short_answer
  | long_answer
  | hots
deriving DecidableEq

instance : BEq QType := instBEqOfDecidableEq

/-- A generated question object as built by `generate_questions` (the
`options` key is present only for MCQ). -/
structure Question where
  qtype : QType
  question : Str
  options : Option (List Str)
  quality_score : ℚ
  difficulty : Nat
  model_used : Str
deriving DecidableEq

instance : Inhabited Question := ⟨⟨QType.mcq, [], none, 0, 0, []⟩⟩

/-- An answer-key entry `{"question": ..., "answer": ...}`. -/
structure AKEntry where
  question : Str
  answer : Str
deriving DecidableEq

instance : Inhabited AKEntry := ⟨⟨[], []⟩⟩

/-- The `{"questions": ..., "answer_key": ...}` result. -/
structure GenResult where
  questions : List Question
  answer_key : List AKEntry
deriving DecidableEq

/-- The quota configuration read by `generate_questions` via
`config.get(key, 0)` and `config.get(difficulty, 3)`. -/
structure GenerationConfig where
  num_mcq : Nat
  num_true_false : Nat
  num_short_answer : Nat
  num_long_answer : Nat
  num_hots : Nat
  difficulty : Nat
deriving DecidableEq

/-- `QuestionGenerator._validate_question` (lines 134-160); the
`question_type` argument is accepted but unused, as in the source. -/
def _validate_question (question : Str) (_question_type : QType) : Bool :=
  if question = [] then false
  else if (pyStrip question).length < 10 then false
  else if ¬ ((pyStrip question).getLast? = some '?') then false
  else if lowerL (pyStrip question) ∈
    [([] : Str), str "none", str "error", str "failed"] then false
  else true

/-- `QuestionGenerator._score_question_quality` (lines 162-196). -/
def _score_question_quality (word_tokenize : Str → List Str)
    (question context : Str) : ℚ :=
  let score : ℚ := 1/2
  let question_words := [str "what", str "who", str "when", str "where",
    str "why", str "how", str "which", str "explain", str "describe",
    str "compare"]
  let score := if question_words.any (fun w => hasSub w (lowerL question))
    then score + 1/5 else score
  let word_count := (word_tokenize question).length
  let score :=
    if 20 ≤ word_count ∧ word_count ≤ 100 then score + 1/5
    else if (10 ≤ word_count ∧ word_count < 20) ∨
        (100 < word_count ∧ word_count ≤ 150) then score + 1/10
    else score
  let common := ((word_tokenize (lowerL context)).eraseDups).filter
    (fun w => decide (w ∈ word_tokenize (lowerL question)))
  let score := if 2 ≤ common.length then score + 1/10 else score
  min 1 score

/-- `QuestionGenerator._generate_rule_based_question` (lines 280-305). -/
def _generate_rule_based_question (context : Str) (question_type : QType)
    (_difficulty : Nat) : Str :=
  let sentences := context.splitOn '.'
  let fs0 := pyStrip (sentences.headD [])
  let first_sentence := if fs0.length < 20 then context.take 100 ++ str "..."
    else fs0
  match question_type with
  | QType.mcq => str "What is the main topic discussed in: \x27"
      ++ first_sentence.take 50 ++ str "...\x27?"
  | QType.true_false =>
      str "The text contains factual information that can be verified?"
  | QType.short_answer =>
      str "What are the key points discussed in this text?"
  | QType.long_answer =>
      str "Explain in detail the main concepts and their relationships as discussed in this text."
  | QType.hots =>
      str "How would you apply the concepts from this text to solve a real-world problem?"

/-- `QuestionGenerator._generate_rule_based_distractors` (lines 373-379). -/
def _generate_rule_based_distractors (_context : Str) : List Str :=
  [str "A secondary topic", str "An unrelated subject", str "None of the above"]

/-- `QuestionGenerator._generate_mcq_from_context` (lines 307-371) in
rule-based mode (`self.question_generator` is `None`); `shuffle` is the
injected `random.shuffle` permutation of the option list. -/
def _generate_mcq_from_context (shuffle : List Str → List Str)
    (context : Str) (difficulty : Nat) : Str × List Str × Str :=
  let question := _generate_rule_based_question context QType.mcq difficulty
  let distractors := _generate_rule_based_distractors context
  let correct_answer := str "The main topic of the text"
  let options := shuffle (correct_answer :: distractors)
  (question, options, correct_answer)

/-- The fixed copula/possession vocabulary of
`_generate_true_false_from_context`. -/
def factual_indicators : List Str :=
  [str "is", str "are", str "was", str "were", str "has", str "have",
   str "had", str "consists", str "contains", str "includes"]

/-- `QuestionGenerator._generate_true_false_from_context` (lines 381-401) in
rule-based mode. -/
def _generate_true_false_from_context (context : Str) : Str × Bool :=
  let question := _generate_rule_based_question context QType.true_false 3
  let answer := factual_indicators.any (fun w => hasSub w (lowerL context))
  (question, answer)

/-- `QuestionGenerator._generate_short_answer_from_context` in rule-based
mode. -/
def _generate_short_answer_from_context (context : Str) : Str :=
  _generate_rule_based_question context QType.short_answer 3

/-- `QuestionGenerator._generate_long_answer_from_context` in rule-based
mode. -/
def _generate_long_answer_from_context (context : Str) : Str :=
  _generate_rule_based_question context QType.long_answer 4

/-- `QuestionGenerator._generate_hots_from_context` in rule-based mode. -/
def _generate_hots_from_context (context : Str) : Str :=
  _generate_rule_based_question context QType.hots 5

/-- Python `str(bool)`. -/
def pyBoolStr (b : Bool) : Str := if b then str "True" else str "False"

/-- Outcome of the generation calls inside one `try` block, before
validation: the question text, the option list (MCQ only) and the answer
string put into the answer key. -/
structure AttemptRes where
  question : Str
  options : Option (List Str)
  answer : Str
deriving DecidableEq

/-- One generation attempt per quota iteration, given the question type, the
0-based loop counter, the selected context and the difficulty; `none` models
the attempt raising an exception. -/
abbrev AttemptFun := QType → Nat → Str → Nat → Option AttemptRes

/-- The attempts actually performed by `generate_questions` in rule-based
mode: pure computations that never raise. -/
def ruleAttempt (shuffle : List Str → List Str) : AttemptFun :=
  fun q_type _i context difficulty =>
    match q_type with
    | QType.mcq =>
      let r := _generate_mcq_from_context shuffle context difficulty
      some ⟨r.1, some r.2.1, r.2.2⟩
    | QType.true_false =>
      let r := _generate_true_false_from_context context
      some ⟨r.1, none, pyBoolStr r.2⟩
    | QType.short_answer =>
      some ⟨_generate_short_answer_from_context context, none,
        str "Key points from the text"⟩
    | QType.long_answer =>
      some ⟨_generate_long_answer_from_context context, none,
        str "Detailed explanation required"⟩
    | QType.hots =>
      some ⟨_generate_hots_from_context context, none,
        str "Application and analysis required"⟩

/-- Body of one loop iteration of `generate_questions`: pick the context by
round-robin (`valid_contexts[i % len(valid_contexts)]`), run the attempt,
validate, and on success build the question object and its answer-key entry;
`none` when the attempt raised or validation rejected the candidate. -/
def stepIter (word_tokenize : Str → List Str) (attempt : AttemptFun)
    (model_name : Str) (valid_contexts : List Str) (difficulty : Nat)
    (p : QType × Nat) : Option (Question × AKEntry) :=
  let context := valid_contexts.getD (p.2 % valid_contexts.length) []
  match attempt p.1 p.2 context difficulty with
  | none => none
  | some r =>
    if _validate_question r.question p.1 then
      some (⟨p.1, r.question, r.options,
              _score_question_quality word_tokenize r.question context,
              difficulty, model_name⟩,
            ⟨r.question, r.answer⟩)
    else none

/-- The loop of `generate_questions`: append the question object and the
answer-key entry of every successful iteration, in order. -/
def genLoop (step : QType × Nat → Option (Question × AKEntry)) :
    List (QType × Nat) → List Question × List AKEntry →
      List Question × List AKEntry
  | [], acc => acc
  | p :: rest, (qs, ak) =>
    match step p with
    | none => genLoop step rest (qs, ak)
    | some (q, a) => genLoop step rest (qs ++ [q], ak ++ [a])

/-- The iteration sequence of `generate_questions`: the five question types
in the fixed dict order, each with its 0-based per-type loop counter. -/
def iterList (config : GenerationConfig) : List (QType × Nat) :=
  (List.range config.num_mcq).map (fun i => (QType.mcq, i)) ++
  (List.range config.num_true_false).map (fun i => (QType.true_false, i)) ++
  (List.range config.num_short_answer).map (fun i => (QType.short_answer, i)) ++
  (List.range config.num_long_answer).map (fun i => (QType.long_answer, i)) ++
  (List.range config.num_hots).map (fun i => (QType.hots, i))

/-- The chunk filter `ctx and len(ctx.strip()) > 10`. -/
def validCtx (ctx : Str) : Bool :=
  !(ctx == ([] : Str)) && decide (10 < (pyStrip ctx).length)

/-- Run the whole iteration sequence from empty accumulators. -/
def runIterations (word_tokenize : Str → List Str) (attempt : AttemptFun)
    (model_name : Str) (valid_contexts : List Str) (difficulty : Nat)
    (iters : List (QType × Nat)) : List Question × List AKEntry :=
  genLoop (stepIter word_tokenize attempt model_name valid_contexts difficulty)
    iters ([], [])

/-- `QuestionGenerator.generate_questions` (lines 448-568), generalized over
the per-iteration attempt (so that a raising model-backed attempt is the
`none` case). -/
def generate_questions_gen (word_tokenize : Str → List Str)
    (attempt : AttemptFun) (model_name : Str) (context_chunks : List Str)
    (config : GenerationConfig) : GenResult :=
  if context_chunks.isEmpty then ⟨[], []⟩
  else
    let valid_contexts := context_chunks.filter validCtx
    if valid_contexts.isEmpty then ⟨[], []⟩
    else
      let res := runIterations word_tokenize attempt model_name valid_contexts
        config.difficulty (iterList config)
      ⟨res.1, res.2⟩

/-- `QuestionGenerator.generate_questions` in rule-based mode (the reachable
mode: `AI_AVAILABLE` is `False`). -/
def generate_questions (word_tokenize : Str → List Str)
    (shuffle : List Str → List Str) (context_chunks : List Str)
    (config : GenerationConfig) : GenResult :=
  generate_questions_gen word_tokenize (ruleAttempt shuffle)
    (str "rule-based") context_chunks config

/-- The mutable attributes of a `QuestionGenerator` instance set by
`__init__` / `_use_rule_based` / `_load_ai_model` (the heavyweight objects
are abstracted to `Option Unit`: `some` when assigned, `none` for `None`). -/
structure QuestionGeneratorState where
  model_name : Str
  device : Option Unit
  tokenizer : Option Unit
  model : Option Unit
  question_generator : Option Unit
deriving DecidableEq

/-- Module-level `AI_AVAILABLE` flag (question_generator.py lines 8-9): it is
`False` at import time, and the only assignment to `True` sits inside
`_load_ai_model`, which is reachable only when the flag is already `True`. -/
def AI_AVAILABLE : Bool := false

/-- `QuestionGenerator._use_rule_based` (lines 125-132). -/
def _use_rule_based (_s : QuestionGeneratorState) : QuestionGeneratorState :=
  ⟨str "rule-based", none, none, none, none⟩

/-- `QuestionGenerator.__init__` (lines 45-70).  `_load_ai_model` is a
parameter because its body is never reached from the constructor. -/
def questionGeneratorInit
    (_load_ai_model : QuestionGeneratorState → QuestionGeneratorState)
    (model_name : Str) : QuestionGeneratorState :=
  let s : QuestionGeneratorState := ⟨model_name, none, none, none, none⟩
  if AI_AVAILABLE && !(model_name == str "rule-based") then _load_ai_model s
  else _use_rule_based s

theorem genLoop_spec (step : QType × Nat → Option (Question × AKEntry))
    (L : List (QType × Nat)) (qs : List Question) (ak : List AKEntry) :
    genLoop step L (qs, ak) =
      (qs ++ (L.filterMap step).map Prod.fst,
       ak ++ (L.filterMap step).map Prod.snd) := by
  induction L generalizing qs ak with
  | nil => simp [genLoop]
  | cons p rest ih =>
    match hs : step p with
    | none => simp [genLoop, hs, ih]
    | some qa =>
      obtain ⟨q, a⟩ := qa
      simp [genLoop, hs, ih]

theorem stepIter_some_elim (word_tokenize : Str → List Str)
    (attempt : AttemptFun) (model_name : Str) (valid_contexts : List Str)
    (difficulty : Nat) (p : QType × Nat) (pr : Question × AKEntry)
    (h : stepIter word_tokenize attempt model_name valid_contexts difficulty p
      = some pr) :
    ∃ r, attempt p.1 p.2 (valid_contexts.getD (p.2 % valid_contexts.length) [])
        difficulty = some r ∧
      _validate_question r.question p.1 = true ∧
      pr = (⟨p.1, r.question, r.options,
              _score_question_quality word_tokenize r.question
                (valid_contexts.getD (p.2 % valid_contexts.length) []),
              difficulty, model_name⟩,
            ⟨r.question, r.answer⟩) := by
  simp only [stepIter] at h
  split at h
  · exact Option.noConfusion h
  · rename_i r hat
    split at h
    · rename_i hv
      injection h with h'
      exact ⟨r, hat, hv, h'.symm⟩
    · exact Option.noConfusion h

theorem generate_questions_gen_pairs (word_tokenize : Str → List Str)
    (attempt : AttemptFun) (model_name : Str) (context_chunks : List Str)
    (config : GenerationConfig)
    (h1 : context_chunks.isEmpty = false)
    (h2 : (context_chunks.filter validCtx).isEmpty = false) :
    generate_questions_gen word_tokenize attempt model_name context_chunks config =
      ⟨((iterList config).filterMap (stepIter word_tokenize attempt model_name
          (context_chunks.filter validCtx) config.difficulty)).map Prod.fst,
       ((iterList config).filterMap (stepIter word_tokenize attempt model_name
          (context_chunks.filter validCtx) config.difficulty)).map Prod.snd⟩ := by
  simp [generate_questions_gen, runIterations, h1, h2, genLoop_spec]

/-- C1: for every call to `generate_questions` (any attempt behaviour, hence
both generation modes), the returned `questions` and `answer_key` have equal
length and are index-aligned in emission order: the question text of the
i-th answer-key entry equals the question text of the i-th question. -/
theorem generate_questions_alignment (word_tokenize : Str → List Str)
    (attempt : AttemptFun) (model_name : Str) (context_chunks : List Str)
    (config : GenerationConfig) :
    (generate_questions_gen word_tokenize attempt model_name context_chunks
        config).questions.length
      = (generate_questions_gen word_tokenize attempt model_name context_chunks
        config).answer_key.length ∧
    (generate_questions_gen word_tokenize attempt model_name context_chunks
        config).answer_key.map AKEntry.question
      = (generate_questions_gen word_tokenize attempt model_name context_chunks
        config).questions.map Question.question := by
  by_cases h1 : context_chunks.isEmpty
  · simp [generate_questions_gen, h1]
  · by_cases h2 : (context_chunks.filter validCtx).isEmpty
    · simp [generate_questions_gen, h1, h2]
    · rw [generate_questions_gen_pairs word_tokenize attempt model_name
        context_chunks config (by simpa using h1) (by simpa using h2)]
      constructor
      · simp
      · simp only [List.map_map]
        refine List.map_congr_left ?_
        intro pr hpr
        rcases List.mem_filterMap.mp hpr with ⟨p, hp, hstep⟩
        obtain ⟨r, hat, hv, rfl⟩ := stepIter_some_elim _ _ _ _ _ _ _ hstep
        rfl

/-- C9: for every `model_name` argument (including `"t5-small"`), the
constructor ends in rule-based mode, because the module-level `AI_AVAILABLE`
flag is `False` when the branch is evaluated, so `_load_ai_model` is never
invoked: afterwards `model_name == "rule-based"`, `question_generator is
None` and `model is None`. -/
theorem questionGeneratorInit_rule_based
    (load_ai_model : QuestionGeneratorState → QuestionGeneratorState)
    (model_name : Str) :
    (questionGeneratorInit load_ai_model model_name).model_name
        = str "rule-based" ∧
    (questionGeneratorInit load_ai_model model_name).question_generator = none ∧
    (questionGeneratorInit load_ai_model model_name).model = none := by
  simp [questionGeneratorInit, AI_AVAILABLE, _use_rule_based]

theorem long_answer_template (context : Str) (difficulty : Nat) :
    _generate_rule_based_question context QType.long_answer difficulty
      = str "Explain in detail the main concepts and their relationships as discussed in this text." :=
  rfl

theorem long_answer_rejected (context : Str) (difficulty : Nat) :
    _validate_question
        (_generate_rule_based_question context QType.long_answer difficulty)
        QType.long_answer = false := by
  rw [long_answer_template]
  decide

/-- C10: in rule-based mode the LONG_ANSWER candidate is the fixed template
string, which does not end in a question mark, so `_validate_question`
rejects it; hence no call of `generate_questions` ever emits a question of
type `long_answer`, whatever the `num_long_answer` quota. -/
theorem generate_questions_no_long_answer (word_tokenize : Str → List Str)
    (shuffle : List Str → List Str) (context_chunks : List Str)
    (config : GenerationConfig) :
    (∀ context difficulty,
      _generate_rule_based_question context QType.long_answer difficulty
        = str "Explain in detail the main concepts and their relationships as discussed in this text.") ∧
    (∀ context difficulty,
      _validate_question
          (_generate_rule_based_question context QType.long_answer difficulty)
          QType.long_answer = false) ∧
    ((generate_questions word_tokenize shuffle context_chunks config).questions.all
        (fun q => !(q.qtype == QType.long_answer))) = true := by
  refine ⟨long_answer_template, long_answer_rejected, ?_⟩
  unfold generate_questions
  by_cases h1 : context_chunks.isEmpty
  · simp [generate_questions_gen, h1]
  · by_cases h2 : (context_chunks.filter validCtx).isEmpty
    · simp [generate_questions_gen, h1, h2]
    · rw [generate_questions_gen_pairs _ _ _ _ _ (by simpa using h1)
        (by simpa using h2)]
      rw [List.all_eq_true]
      intro q hq
      rcases List.mem_map.mp hq with ⟨pr, hpr, rfl⟩
      rcases List.mem_filterMap.mp hpr with ⟨p, hp, hstep⟩
      obtain ⟨r, hat, hv, rfl⟩ := stepIter_some_elim _ _ _ _ _ _ _ hstep
      by_cases hlq : p.1 = QType.long_answer
      · exfalso
        rw [hlq] at hat
        simp only [ruleAttempt] at hat
        injection hat with hat'
        rw [← hat'] at hv
        rw [hlq] at hv
        rw [show (⟨_generate_long_answer_from_context
            (List.getD (context_chunks.filter validCtx)
              (p.2 % (context_chunks.filter validCtx).length) []), none,
            str "Detailed explanation required"⟩ : AttemptRes).question
          = _generate_rule_based_question
              (List.getD (context_chunks.filter validCtx)
                (p.2 % (context_chunks.filter validCtx).length) [])
              QType.long_answer 4 from rfl] at hv
        rw [long_answer_rejected] at hv
        cases hv
      · simp [hlq]

theorem map_getD_of_lt {α β : Type} (l : List α) (f : α → β) (i : Nat)
    (d : β) (d' : α) (h : i < l.length) :
    (l.map f).getD i d = f (l.getD i d') := by
  induction l generalizing i with
  | nil => simp at h
  | cons x xs ih =>
    match i with
    | 0 => rfl
    | i + 1 =>
      simp only [List.map_cons, List.getD_cons_succ]
      exact ih i (by simpa using h)

theorem getD_mem {α : Type} (l : List α) (i : Nat) (d : α) (h : i < l.length) :
    l.getD i d ∈ l := by
  induction l generalizing i with
  | nil => simp at h
  | cons x xs ih =>
    match i with
    | 0 => simp
    | i + 1 =>
      simp only [List.getD_cons_succ]
      exact List.mem_cons_of_mem _ (ih i (by simpa using h))

theorem perm_count_str (l₁ l₂ : List Str) (h : List.Perm l₁ l₂) (a : Str) :
    l₁.count a = l₂.count a := by
  induction h with
  | nil => rfl
  | cons x _ ih => simp [List.count_cons, ih]
  | swap x y l => simp [List.count_cons]; omega
  | trans _ _ ih₁ ih₂ => exact ih₁.trans ih₂

/-- C2: every MCQ question emitted by `generate_questions` has exactly 4
options, the option list contains the correct answer exactly once, and the
index-aligned answer-key entry has its answer as a member of that option list (for
every injected shuffle that permutes its argument, as `random.shuffle`
does). -/
theorem generate_questions_mcq_options (word_tokenize : Str → List Str)
    (shuffle : List Str → List Str) (context_chunks : List Str)
    (config : GenerationConfig) (i : Nat)
    (hperm : ∀ l, List.Perm (shuffle l) l)
    (hi : i < (generate_questions word_tokenize shuffle context_chunks
      config).questions.length)
    (hty : ((generate_questions word_tokenize shuffle context_chunks
      config).questions.getD i default).qtype = QType.mcq) :
    ∃ opts,
      ((generate_questions word_tokenize shuffle context_chunks
          config).questions.getD i default).options = some opts ∧
      opts.length = 4 ∧
      opts.count (str "The main topic of the text") = 1 ∧
      ((generate_questions word_tokenize shuffle context_chunks
          config).answer_key.getD i default).answer
        = str "The main topic of the text" ∧
      ((generate_questions word_tokenize shuffle context_chunks
          config).answer_key.getD i default).answer ∈ opts := by
  unfold generate_questions at *
  by_cases h1 : context_chunks.isEmpty
  · simp [generate_questions_gen, h1] at hi
  · by_cases h2 : (context_chunks.filter validCtx).isEmpty
    · simp [generate_questions_gen, h1, h2] at hi
    · rw [generate_questions_gen_pairs _ _ _ _ _ (by simpa using h1)
        (by simpa using h2)] at hi hty ⊢
      set pairs := (iterList config).filterMap
        (stepIter word_tokenize (ruleAttempt shuffle) (str "rule-based")
          (context_chunks.filter validCtx) config.difficulty) with hpairs
      simp only [List.length_map] at hi
      have hq : (pairs.map Prod.fst).getD i default
          = (pairs.getD i (default, default)).1 :=
        map_getD_of_lt pairs Prod.fst i default (default, default) hi
      have ha : (pairs.map Prod.snd).getD i default
          = (pairs.getD i (default, default)).2 :=
        map_getD_of_lt pairs Prod.snd i default (default, default) hi
      rw [hq] at hty ⊢
      rw [ha]
      have hmem : pairs.getD i (default, default) ∈ pairs := getD_mem pairs i _ hi
      rcases List.mem_filterMap.mp hmem with ⟨p, hp, hstep⟩
      obtain ⟨r, hat, hv, hpr⟩ := stepIter_some_elim _ _ _ _ _ _ _ hstep
      rw [hpr] at hty ⊢
      have hty' : p.1 = QType.mcq := hty
      rw [hty'] at hat
      simp only [ruleAttempt, _generate_mcq_from_context] at hat
      injection hat with hat'
      rw [← hat']
      refine ⟨shuffle (str "The main topic of the text"
        :: _generate_rule_based_distractors
          (List.getD (context_chunks.filter validCtx)
            (p.2 % (context_chunks.filter validCtx).length) [])),
        ?_, ?_, ?_, ?_, ?_⟩
      · rfl
      · rw [(hperm _).length_eq]
        rfl
      · rw [perm_count_str _ _ (hperm _)]
        show List.count (str "The main topic of the text")
          (str "The main topic of the text" :: [str "A secondary topic",
            str "An unrelated subject", str "None of the above"]) = 1
        decide
      · rfl
      · rw [(hperm _).mem_iff]
        exact List.mem_cons_self _ _

/-- Witness for C2 at a concrete shuffle, tokenizer, chunk list and quota. -/
theorem generate_questions_mcq_options_witness :
    ∃ opts,
      ((generate_questions (fun _ => []) (fun l => l)
          [str "This context sentence is long enough for use."]
          ⟨1, 0, 0, 0, 0, 3⟩).questions.getD 0 default).options = some opts ∧
      opts.length = 4 ∧
      opts.count (str "The main topic of the text") = 1 ∧
      ((generate_questions (fun _ => []) (fun l => l)
          [str "This context sentence is long enough for use."]
          ⟨1, 0, 0, 0, 0, 3⟩).answer_key.getD 0 default).answer
        = str "The main topic of the text" ∧
      ((generate_questions (fun _ => []) (fun l => l)
          [str "This context sentence is long enough for use."]
          ⟨1, 0, 0, 0, 0, 3⟩).answer_key.getD 0 default).answer ∈ opts :=
  generate_questions_mcq_options (fun _ => []) (fun l => l)
    [str "This context sentence is long enough for use."]
    ⟨1, 0, 0, 0, 0, 3⟩ 0 (fun l => List.Perm.refl l) (by decide) (by decide)

/-- C8: if the attempt of exactly one quota iteration raises (is `none`) and
every other iteration is unchanged, `generate_questions` skips only that
iteration: the result is exactly the aggregation over all the remaining
iterations of every type, and the call itself is a total function (it never
propagates the failure). -/
theorem generate_questions_failure_isolation (word_tokenize : Str → List Str)
    (model_name : Str) (context_chunks : List Str) (config : GenerationConfig)
    (a a' : AttemptFun) (p0 : QType × Nat)
    (hagree : ∀ qt i ctx d, (qt, i) ≠ p0 → a' qt i ctx d = a qt i ctx d)
    (hfail : ∀ ctx d, a' p0.1 p0.2 ctx d = none)
    (h1 : context_chunks.isEmpty = false)
    (h2 : (context_chunks.filter validCtx).isEmpty = false) :
    generate_questions_gen word_tokenize a' model_name context_chunks config =
      ⟨(((iterList config).filter (fun p => !(decide (p = p0)))).filterMap
          (stepIter word_tokenize a model_name (context_chunks.filter validCtx)
            config.difficulty)).map Prod.fst,
       (((iterList config).filter (fun p => !(decide (p = p0)))).filterMap
          (stepIter word_tokenize a model_name (context_chunks.filter validCtx)
            config.difficulty)).map Prod.snd⟩ := by
  rw [generate_questions_gen_pairs _ _ _ _ _ h1 h2]
  have key : ∀ L : List (QType × Nat),
      L.filterMap (stepIter word_tokenize a' model_name
          (context_chunks.filter validCtx) config.difficulty)
        = (L.filter (fun p => !(decide (p = p0)))).filterMap
            (stepIter word_tokenize a model_name
              (context_chunks.filter validCtx) config.difficulty) := by
    intro L
    induction L with
    | nil => rfl
    | cons p rest ih =>
      by_cases hp : p = p0
      · subst hp
        have hstep : stepIter word_tokenize a' model_name
            (context_chunks.filter validCtx) config.difficulty p = none := by
          simp only [stepIter]
          rw [hfail]
        rw [List.filterMap_cons, hstep, List.filter_cons]
        simp only [decide_eq_true rfl, Bool.not_true, Bool.false_eq_true,
          if_false]
        exact ih
      · have hstep : stepIter word_tokenize a' model_name
            (context_chunks.filter validCtx) config.difficulty p
              = stepIter word_tokenize a model_name
                (context_chunks.filter validCtx) config.difficulty p := by
          simp only [stepIter]
          rw [hagree p.1 p.2 _ _ (by simpa using hp)]
        rw [List.filterMap_cons, hstep, List.filter_cons]
        have hcond : (!(decide (p = p0))) = true := by simp [hp]
        rw [hcond]
        simp only [if_true]
        rw [List.filterMap_cons, ih]
  rw [key]

/-- Witness for C8: with a two-MCQ quota and an attempt that raises exactly
at iteration `(mcq, 0)`, the call returns the aggregation over all other
iterations. -/
theorem generate_questions_failure_isolation_witness :
    generate_questions_gen (fun _ => [])
        (fun qt i ctx d => if (qt, i) = ((QType.mcq, 0) : QType × Nat) then none
          else ruleAttempt (fun l => l) qt i ctx d)
        (str "rule-based")
        [str "This context sentence is long enough for use."]
        ⟨2, 0, 0, 0, 0, 3⟩ =
      ⟨(((iterList ⟨2, 0, 0, 0, 0, 3⟩).filter
            (fun p => !(decide (p = ((QType.mcq, 0) : QType × Nat))))).filterMap
          (stepIter (fun _ => []) (ruleAttempt (fun l => l)) (str "rule-based")
            ([str "This context sentence is long enough for use."].filter validCtx)
            (3 : Nat))).map Prod.fst,
       (((iterList ⟨2, 0, 0, 0, 0, 3⟩).filter
            (fun p => !(decide (p = ((QType.mcq, 0) : QType × Nat))))).filterMap
          (stepIter (fun _ => []) (ruleAttempt (fun l => l)) (str "rule-based")
            ([str "This context sentence is long enough for use."].filter validCtx)
            (3 : Nat))).map Prod.snd⟩ :=
  generate_questions_failure_isolation (fun _ => []) (str "rule-based")
    [str "This context sentence is long enough for use."]
    ⟨2, 0, 0, 0, 0, 3⟩
    (ruleAttempt (fun l => l))
    (fun qt i ctx d => if (qt, i) = ((QType.mcq, 0) : QType × Nat) then none
      else ruleAttempt (fun l => l) qt i ctx d)
    (QType.mcq, 0)
    (fun qt i ctx d h => if_neg h)
    (fun ctx d => if_pos rfl)
    (by decide) (by decide)

end QuestionGeneratorSec
